import Mathlib

set_option maxHeartbeats 1000000

/-!
Verification of the content rotation and chunking engine of poster.py.

Text is modeled as List Char.  Python str.strip / str.split / the regex
class backslash-s all agree on the same whitespace notion; we model its
ASCII core (space, tab, newline, carriage return, vertical tab, form feed),
used consistently everywhere, exactly as the source uses one notion
consistently.
-/

namespace Poster

/-- Whitespace test shared by the model of str.strip, str.split and the
regex whitespace class (ASCII core of Python's notion). -/
def isWS (c : Char) : Bool :=
  c = ' ' || c = '\t' || c = '\n' || c = '\r' || c = '\x0b' || c = '\x0c'

/-- Python str.strip(): drop leading and trailing whitespace. -/
def stripWS (s : List Char) : List Char :=
  ((s.dropWhile isWS).reverse.dropWhile isWS).reverse

/-- Python str.split() with no separator (helper): accumulate the current
word (reversed) and emit maximal non-whitespace runs. -/
def splitWordsAux (acc : List Char) : List Char → List (List Char)
  | [] => if acc = [] then [] else [acc.reverse]
  | c :: cs =>
    if isWS c then
      if acc = [] then splitWordsAux [] cs
      else acc.reverse :: splitWordsAux [] cs
    else splitWordsAux (c :: acc) cs

/-- Python str.split() with no separator: the list of maximal
non-whitespace runs (words), with no empty entries. -/
def splitWords (s : List Char) : List (List Char) :=
  splitWordsAux [] s

/-- Helper for collapseNLSpace: flush a pending whitespace run (held
reversed in buf); a run containing a newline becomes a single space. -/
def flushWS (buf : List Char) (hasNL : Bool) : List Char :=
  if buf = [] then [] else if hasNL then [' '] else buf.reverse

/-- Helper for collapseNLSpace, structural scan over the text. -/
def collapseNLAux (buf : List Char) (hasNL : Bool) : List Char → List Char
  | [] => flushWS buf hasNL
  | c :: cs =>
    if isWS c then collapseNLAux (c :: buf) (hasNL || c = '\n') cs
    else flushWS buf hasNL ++ c :: collapseNLAux [] false cs

/-- Model of re.sub of pattern backslash-s* backslash-n backslash-s* by a
single space (poster.py line 148): every maximal whitespace run that
contains a newline is replaced by one space; other runs are unchanged. -/
def collapseNLSpace (s : List Char) : List Char :=
  collapseNLAux [] false s

/-- Output of a pending newline run for collapseNL3: runs of three or more
newlines become exactly two; shorter runs are kept. -/
def nlRunOut (k : Nat) : List Char :=
  List.replicate (if 3 ≤ k then 2 else k) '\n'

/-- Helper for collapseNL3, structural scan tracking the length of the
pending newline run. -/
def collapseNL3Aux (k : Nat) : List Char → List Char
  | [] => nlRunOut k
  | c :: cs =>
    if c = '\n' then collapseNL3Aux (k + 1) cs
    else nlRunOut k ++ c :: collapseNL3Aux 0 cs

/-- Model of re.sub collapsing three-or-more consecutive newlines to
exactly two (poster.py line 139). -/
def collapseNL3 (s : List Char) : List Char :=
  collapseNL3Aux 0 s

/-- Helper for splitNL2: piece is the current piece (reversed), k the
length of the pending newline run. -/
def splitNL2Aux (piece : List Char) (k : Nat) : List Char → List (List Char)
  | [] =>
    if 2 ≤ k then [piece.reverse, []]
    else [(List.replicate k '\n' ++ piece).reverse]
  | c :: cs =>
    if c = '\n' then splitNL2Aux piece (k + 1) cs
    else if 2 ≤ k then piece.reverse :: splitNL2Aux [c] 0 cs
    else splitNL2Aux (c :: (List.replicate k '\n' ++ piece)) 0 cs

/-- Model of re.split on runs of two-or-more newlines (poster.py lines 75
and 142): maximal newline runs of length at least 2 are separators; a
single newline stays inside its piece.  Empty pieces are produced at the
ends exactly as re.split produces them. -/
def splitNL2 (s : List Char) : List (List Char) :=
  splitNL2Aux [] 0 s

/-- First pass of the newline normalization (poster.py lines 56 and 137):
str.replace of CR LF by LF, scanning left to right without overlap. -/
def replaceCRLF : List Char → List Char
  | '\r' :: '\n' :: cs => '\n' :: replaceCRLF cs
  | c :: cs => c :: replaceCRLF cs
  | [] => []

/-- Newline normalization: replace CR LF by LF, then every remaining CR
by LF. -/
def normalizeNewlines (s : List Char) : List Char :=
  (replaceCRLF s).map (fun c => if c = '\r' then '\n' else c)

/-- The paragraph list computed by split_and_send_text (poster.py lines
137-142): normalize newlines, collapse 3+ newline runs to 2, split on 2+
newline runs, strip each piece, keep the non-empty ones. -/
def paragraphsOf (text : List Char) : List (List Char) :=
  ((splitNL2 (collapseNL3 (normalizeNewlines text))).map stripWS).filter
    (fun p => !p.isEmpty)

/-- The inner word-accumulation loop of split_and_send_text (poster.py
lines 155-163 and 174-182): pack whole words into tmp, flushing tmp to
chunks when the next word would overflow. -/
def addWords (maxLen : Nat) :
    List (List Char) → List Char → List (List Char) → List (List Char) × List Char
  | chunks, tmp, [] => (chunks, tmp)
  | chunks, tmp, w :: ws =>
    if tmp.length + (if tmp = [] then 0 else 1) + w.length ≤ maxLen then
      addWords maxLen chunks (stripWS (tmp ++ ' ' :: w)) ws
    else if tmp = [] then
      addWords maxLen chunks w ws
    else
      addWords maxLen (chunks ++ [tmp]) w ws

/-- One iteration of the paragraph loop of split_and_send_text (poster.py
lines 146-183), on the state (chunks so far, current buffer cur). -/
def packStep (maxLen : Nat) (st : List (List Char) × List Char) (para : List Char) :
    List (List Char) × List Char :=
  let chunks := st.1
  let cur := st.2
  let pc := stripWS (collapseNLSpace para)
  if cur = [] then
    if pc.length ≤ maxLen then (chunks, pc)
    else addWords maxLen chunks [] (splitWords pc)
  else
    let cand := cur ++ '\n' :: '\n' :: pc
    if cand.length ≤ maxLen then (chunks, cand)
    else
      let chunks2 := chunks ++ [cur]
      if pc.length ≤ maxLen then (chunks2, pc)
      else addWords maxLen chunks2 [] (splitWords pc)

/-- The chunk list built by split_and_send_text before sending (poster.py
lines 144-185): fold the paragraph loop, then flush the final buffer. -/
def packChunks (maxLen : Nat) (text : List Char) : List (List Char) :=
  let r := (paragraphsOf text).foldl (packStep maxLen) ([], [])
  if r.2 = [] then r.1 else r.1 ++ [r.2]

/-- The per-chunk payload actually transmitted (poster.py line 188): an
all-whitespace chunk would be replaced by a single space. -/
def toSend (part : List Char) : List Char :=
  if stripWS part = [] then [' '] else part

/-- split_and_send_text as the ordered list of text payloads it transmits
(poster.py lines 135-190); the sends themselves are modeled in the main
loop below. -/
def split_and_send_text (maxLen : Nat) (text : List Char) : List (List Char) :=
  (packChunks maxLen text).map toSend

end Poster

/-! ## Segmenter: split_msgs (poster.py lines 44-76) -/

namespace Poster

/-- Python str.split with a non-empty literal separator d (poster.py line
65): cut at each leftmost non-overlapping occurrence of d.  Applied only
with a non-empty d (the config gate guarantees the decoded delimiter is
non-empty; an empty d never matches here, while Python would raise). -/
def splitSub (d : List Char) : List Char → List (List Char)
  | [] => [[]]
  | c :: cs =>
    if d ≠ [] ∧ d.isPrefixOf (c :: cs) then
      [] :: splitSub d (List.drop d.length (c :: cs))
    else
      match splitSub d cs with
      | [] => [[c]]
      | p :: ps => (c :: p) :: ps
termination_by s => s.length
decreasing_by
  · rename_i h
    have hd : 1 ≤ d.length := by
      rcases h with ⟨h1, -⟩
      cases d with
      | nil => exact absurd rfl h1
      | cons a l => simp
    simp only [List.length_drop, List.length_cons]
    omega
  · simp

/-- The separator-line characters of the strong-separator regex character
class: hyphen-minus, en dash, em dash (poster.py line 59). -/
def isDash (c : Char) : Bool :=
  c = '-' || c = '–' || c = '—'

/-- After the run of separator characters, the regex requires optional
whitespace ending in a newline; greedy matching consumes the following
whitespace run up to and including its last newline.  Returns the
remainder of the text after the match, or none if the run holds no
newline (no match). -/
def sepTail (r2 : List Char) : Option (List Char) :=
  let w2 := r2.takeWhile isWS
  if '\n' ∈ w2 then
    some ((w2.reverse.takeWhile (fun c => c ≠ '\n')).reverse ++ r2.dropWhile isWS)
  else none

/-- Attempt to match the strong-separator pattern (a newline, optional
whitespace, three-or-more dashes or three-or-more underscores, optional
whitespace, a newline; poster.py line 59) at the head of s, greedily.
Returns the remainder after the match. -/
def matchSepAt : List Char → Option (List Char)
  | [] => none
  | c :: cs =>
    if c = '\n' then
      let r1 := cs.dropWhile isWS
      let dash := r1.takeWhile isDash
      if 3 ≤ dash.length then sepTail (r1.dropWhile isDash)
      else
        let und := r1.takeWhile (fun x => x = '_')
        if 3 ≤ und.length then sepTail (r1.dropWhile (fun x => x = '_'))
        else none
    else none

/-- takeWhile stops strictly before an element falsifying the test. -/
theorem length_takeWhile_lt_of_exists {p : Char → Bool} :
    ∀ {l : List Char}, (∃ x ∈ l, p x = false) → (l.takeWhile p).length < l.length := by
  intro l h
  induction l with
  | nil => rcases h with ⟨x, hx, -⟩; cases hx
  | cons a l ih =>
    rcases h with ⟨x, hx, hpx⟩
    by_cases hpa : p a = true
    · have hxl : x ∈ l := by
        rcases List.mem_cons.mp hx with h1 | h1
        · subst h1; rw [hpa] at hpx; cases hpx
        · exact h1
      have ht : List.takeWhile p (a :: l) = a :: List.takeWhile p l := by
        simp [List.takeWhile_cons, hpa]
      rw [ht]
      simp only [List.length_cons]
      have := ih ⟨x, hxl, hpx⟩
      omega
    · have hpa' : p a = false := by
        cases hpa2 : p a
        · rfl
        · exact absurd hpa2 hpa
      simp [List.takeWhile_cons, hpa']

/-- A successful sepTail strictly shrinks the text. -/
theorem sepTail_length {r2 r : List Char} (h : sepTail r2 = some r) :
    r.length < r2.length := by
  unfold sepTail at h
  by_cases hmem : '\n' ∈ r2.takeWhile isWS
  · simp only [hmem, if_true, Option.some.injEq] at h
    subst h
    have h1 : ((r2.takeWhile isWS).reverse.takeWhile (fun c => c ≠ '\n')).length <
        (r2.takeWhile isWS).length := by
      have := length_takeWhile_lt_of_exists (p := fun c => decide (c ≠ '\n'))
        (l := (r2.takeWhile isWS).reverse) ⟨'\n', List.mem_reverse.mpr hmem, by simp⟩
      simpa using this
    have h2 : (r2.takeWhile isWS).length + (r2.dropWhile isWS).length = r2.length := by
      have h3 := congrArg List.length (List.takeWhile_append_dropWhile isWS r2)
      rwa [List.length_append] at h3
    simp only [List.length_append, List.length_reverse]
    omega
  · simp [hmem] at h

/-- A successful strong-separator match strictly shrinks the text. -/
theorem matchSepAt_length : ∀ {s r : List Char}, matchSepAt s = some r → r.length < s.length := by
  intro s r h
  match s with
  | [] => cases h
  | c :: cs =>
    unfold matchSepAt at h
    by_cases hc : c = '\n'
    · simp only [hc, if_true] at h
      have hr1 : (cs.dropWhile isWS).length ≤ cs.length := (List.dropWhile_sublist isWS).length_le
      split at h
      · have h2 : ((cs.dropWhile isWS).dropWhile isDash).length ≤ (cs.dropWhile isWS).length :=
          (List.dropWhile_sublist isDash).length_le
        have := sepTail_length h
        simp only [List.length_cons]
        omega
      · split at h
        · have h2 : ((cs.dropWhile isWS).dropWhile (fun x => x = '_')).length ≤
              (cs.dropWhile isWS).length := (List.dropWhile_sublist (fun x => x = '_')).length_le
          have := sepTail_length h
          simp only [List.length_cons]
          omega
        · cases h
    · simp [hc] at h

/-- Scan of re.split with the strong-separator pattern: at each position,
cut when the pattern matches (leftmost, non-overlapping), else keep the
character in the current piece (held reversed in acc). -/
def splitStrongSepAux (acc : List Char) (s : List Char) : List (List Char) :=
  match hm : matchSepAt s with
  | some r => acc.reverse :: splitStrongSepAux [] r
  | none =>
    match s with
    | [] => [acc.reverse]
    | c :: cs => splitStrongSepAux (c :: acc) cs
termination_by s.length
decreasing_by
  · exact matchSepAt_length hm
  · simp

/-- Model of re.split with the compiled strong-separator pattern
(poster.py lines 59 and 70). -/
def splitStrongSep (s : List Char) : List (List Char) :=
  splitStrongSepAux [] s

/-- split_msgs (poster.py lines 44-76).  userDelim models the custom
delimiter configuration: some d when SPLIT_DELIM is set, its strip is not
one of "", the two-character escape of a double newline, or an actual
double newline (the gate on line 62), and d is the delimiter after
unicode-escape decoding (line 64, necessarily non-empty); none otherwise.
The function returns [] for empty or whitespace-only input, else tries
the custom delimiter (returning its pieces whenever at least one is
non-empty), else the strong-separator split (kept only when it yields
more than one piece), else the blank-line fallback. -/
def split_msgs (userDelim : Option (List Char)) (text : List Char) : List (List Char) :=
  if stripWS text = [] then []
  else
    let t := normalizeNewlines text
    let customUnits : List (List Char) :=
      match userDelim with
      | some d => ((splitSub d t).map stripWS).filter (fun p => !p.isEmpty)
      | none => []
    if customUnits ≠ [] then customUnits
    else
      let strong := ((splitStrongSep t).map stripWS).filter (fun p => !p.isEmpty)
      if 1 < strong.length then strong
      else ((splitNL2 t).map stripWS).filter (fun p => !p.isEmpty)

end Poster

/-! ## Image pool: gather_images (poster.py lines 78-94) -/

namespace Poster

/-- A root directory listing: each top-level entry is a name together
with (some contents) when the entry is a subdirectory with the given
file names, or none when it is a plain file. -/
abbrev DirListing := List (List Char × Option (List (List Char)))

/-- Stable insertion sort.  Python's sorted is stable; a stable sort by
the same order produces the same list, so this models sorted exactly. -/
def insertS (le : List Char → List Char → Bool) (x : List Char) :
    List (List Char) → List (List Char)
  | [] => [x]
  | y :: ys => if le x y then x :: y :: ys else y :: insertS le x ys

/-- Stable sort of a list of names by the order le. -/
def sortS (le : List Char → List Char → Bool) (l : List (List Char)) : List (List Char) :=
  l.foldr (insertS le) []

/-- Python str.isdigit for the ASCII digits: non-empty and all digits. -/
def isDigitStr (s : List Char) : Bool :=
  !s.isEmpty && s.all Char.isDigit

/-- Python int() on a digit string: its decimal value. -/
def natVal (s : List Char) : Nat :=
  s.foldl (fun n c => n * 10 + (c.toNat - 48)) 0

/-- Python string comparison: lexicographic by code point. -/
def lexLE : List Char → List Char → Bool
  | [], _ => true
  | _ :: _, [] => false
  | a :: as, b :: bs => if a < b then true else if b < a then false else lexLE as bs

/-- Comparison of names by their lower-cased form (Python key x.lower(),
ASCII lowering). -/
def lowerLexLE (a b : List Char) : Bool :=
  lexLE (a.map Char.toLower) (b.map Char.toLower)

/-- The sort key order of poster.py line 82: the key is (0, int(x)) for
digit-named entries and (1, x.lower()) otherwise, compared as tuples. -/
def pyKeyLE (a b : List Char) : Bool :=
  match isDigitStr a, isDigitStr b with
  | true, true => decide (natVal a ≤ natVal b)
  | true, false => true
  | false, true => false
  | false, false => lowerLexLE a b

/-- f.lower().endswith((".jpg", ".jpeg", ".png", ".webp")). -/
def imgName (f : List Char) : Bool :=
  let lf := f.map Char.toLower
  ['.', 'j', 'p', 'g'].isSuffixOf lf || ['.', 'j', 'p', 'e', 'g'].isSuffixOf lf ||
    ['.', 'p', 'n', 'g'].isSuffixOf lf || ['.', 'w', 'e', 'b', 'p'].isSuffixOf lf

/-- os.path.join for one relative component. -/
def joinPath (a b : List Char) : List Char :=
  a ++ '/' :: b

/-- gather_images (poster.py lines 78-94) on a root listing: walk the
top-level entries in the key order of line 82 appending each
subdirectory's image-named contents in sorted order, then walk the
top-level names in plain sorted order appending each loose image file
whose path is not already present. -/
def gather_images (root : List Char) (listing : DirListing) : List (List Char) :=
  let names := listing.map Prod.fst
  let items := sortS pyKeyLE names
  let dirImages := items.foldl (fun acc it =>
    match listing.lookup it with
    | some (some contents) =>
        acc ++ ((sortS lexLE contents).filter imgName).map (fun f => joinPath (joinPath root it) f)
    | _ => acc) []
  (sortS lexLE names).foldl (fun acc f =>
    match listing.lookup f with
    | some none =>
        let fp := joinPath root f
        if imgName f ∧ fp ∉ acc then acc ++ [fp] else acc
    | _ => acc) dirImages

/-- Modelled from the claim's words (C6): the top-level entries ordered
with the numeric-named ones first in numeric order, then the remaining
ones in the order nonNumLE (the claim says lexicographic; the code uses
the lower-cased name). -/
def specTopOrder (nonNumLE : List Char → List Char → Bool)
    (names : List (List Char)) : List (List Char) :=
  sortS (fun a b => decide (natVal a ≤ natVal b)) (names.filter isDigitStr) ++
    sortS nonNumLE (names.filter (fun x => !isDigitStr x))

/-- Modelled from the claim's words (C6): walk the top-level entries in
the specTopOrder ordering expanding each directory (its filenames
sorted), then append the root-level loose image files in sorted order,
removing duplicate paths. -/
def gatherImagesSpec (nonNumLE : List Char → List Char → Bool)
    (root : List Char) (listing : DirListing) : List (List Char) :=
  let names := listing.map Prod.fst
  let items := specTopOrder nonNumLE names
  let dirImages := items.foldl (fun acc it =>
    match listing.lookup it with
    | some (some contents) =>
        acc ++ ((sortS lexLE contents).filter imgName).map (fun f => joinPath (joinPath root it) f)
    | _ => acc) []
  (sortS lexLE names).foldl (fun acc f =>
    match listing.lookup f with
    | some none =>
        let fp := joinPath root f
        if imgName f ∧ fp ∉ acc then acc ++ [fp] else acc
    | _ => acc) dirImages

end Poster

/-! ## Rotation scheduler and main posting loop (poster.py lines 96-230) -/

namespace Poster

/-- The two content languages ("hindi" / "english" tags in the source). -/
inductive Lang
  | hindi
  | english
deriving DecidableEq, Repr

/-- The persisted scheduler state (state.json, poster.py lines 96-107).
Fields keep the source's JSON key names. -/
structure PosterState where
  h_msg_index : Nat
  e_msg_index : Nat
  img_index : Nat
  lang_counter : Nat
deriving DecidableEq, Repr

/-- choose_language (poster.py lines 129-133) on a resolved ratio pair:
none models the ZeroDivisionError raised by the modulo when the configured
ratio sums to zero.  Config ratio entries are modeled as naturals. -/
def choose_language (hRatio eRatio lc : Nat) : Option Lang :=
  if hRatio + eRatio = 0 then none
  else some (if lc % (hRatio + eRatio) < hRatio then Lang.hindi else Lang.english)

/-- An outbound Telegram call: sendPhoto with optional caption, or
sendMessage with a text payload. -/
inductive Call
  | photo (img : List Char) (caption : Option (List Char))
  | text (t : List Char)
deriving DecidableEq, Repr

/-- Observable effects of one run of main, in order: successful outbound
calls, state persistences (save_state), and the three prints of the loop
(success, language-exhaustion skip, image exhaustion) plus the error
print of the except branch. -/
inductive Event
  | sentPhoto (img : List Char) (caption : Option (List Char))
  | sentText (t : List Char)
  | saved (s : PosterState)
  | posted (lang : Lang) (msgIdx imgIdx : Nat)
  | skipLang (lang : Lang)
  | skipImages
  | postingError
deriving DecidableEq, Repr

/-- The event recording a successful outbound call. -/
def eventOfCall : Call → Event
  | Call.photo i c => Event.sentPhoto i c
  | Call.text t => Event.sentText t

/-- Result of attempting a sequence of outbound calls: the events of the
successful calls (in order), the number of calls attempted, and whether
all succeeded. -/
structure SendRes where
  events : List Event
  count : Nat
  ok : Bool
deriving DecidableEq, Repr

/-- Attempt the calls in order against the network oracle net (call number
n succeeds iff net n); the first failure raises, so later calls are not
attempted. -/
def sendCalls (net : Nat → Bool) : Nat → List Call → SendRes
  | _, [] => ⟨[], 0, true⟩
  | c0, c :: cs =>
    if net c0 then
      let r := sendCalls net (c0 + 1) cs
      ⟨eventOfCall c :: r.events, r.count + 1, r.ok⟩
    else ⟨[], 1, false⟩

/-- Static context of one run: the two segmented message lists, the image
list, the resolved ratio pair, and the caption configuration. -/
structure RunCtx where
  hindi : List (List Char)
  eng : List (List Char)
  images : List (List Char)
  hRatio : Nat
  eRatio : Nat
  prefCaption : Bool
  capLen : Nat

/-- msgs = hindi_msgs if lang == "hindi" else eng_msgs (poster.py 201). -/
def msgsOf (ctx : RunCtx) : Lang → List (List Char)
  | Lang.hindi => ctx.hindi
  | Lang.english => ctx.eng

/-- state[mi_key] for the selected language (poster.py 202). -/
def msgIndex (s : PosterState) : Lang → Nat
  | Lang.hindi => s.h_msg_index
  | Lang.english => s.e_msg_index

/-- The state update of a successful post (poster.py 223-225): bump the
selected language's message index, the image index and the counter. -/
def bumpAll (s : PosterState) : Lang → PosterState
  | Lang.hindi =>
    { s with h_msg_index := s.h_msg_index + 1, img_index := s.img_index + 1,
             lang_counter := s.lang_counter + 1 }
  | Lang.english =>
    { s with e_msg_index := s.e_msg_index + 1, img_index := s.img_index + 1,
             lang_counter := s.lang_counter + 1 }

/-- The outbound calls of one publish decision (poster.py 217-221): a
single captioned photo when the caption preference applies, otherwise an
uncaptioned photo followed by the text chunks (hard-coded max_len 4000). -/
def postCalls (ctx : RunCtx) (msg img : List Char) : List Call :=
  if ctx.prefCaption ∧ msg.length ≤ ctx.capLen then [Call.photo img (some msg)]
  else Call.photo img none :: (split_and_send_text 4000 msg).map Call.text

/-- The for-loop of main (poster.py 199-230), from a given loaded state,
with n attempts remaining and callNo outbound calls already made.  Returns
none when choose_language raises (zero ratio total, uncaught since it is
outside the try).  Otherwise returns the final in-memory state (equal to
the last persisted one, since every mutation is immediately saved) and the
ordered event trace. -/
def runMain (ctx : RunCtx) (net : Nat → Bool) :
    Nat → PosterState → Nat → Option (PosterState × List Event)
  | 0, s, _ => some (s, [])
  | n + 1, s, callNo =>
    match choose_language ctx.hRatio ctx.eRatio s.lang_counter with
    | none => none
    | some lang =>
      let msgs := msgsOf ctx lang
      let mi := msgIndex s lang
      if msgs.length ≤ mi then
        let s' := { s with lang_counter := s.lang_counter + 1 }
        (runMain ctx net n s' callNo).map
          (fun r => (r.1, Event.skipLang lang :: Event.saved s' :: r.2))
      else if ctx.images.length ≤ s.img_index then
        (runMain ctx net n s callNo).map
          (fun r => (r.1, Event.skipImages :: r.2))
      else
        let msg := msgs.getD mi []
        let img := ctx.images.getD s.img_index []
        let res := sendCalls net callNo (postCalls ctx msg img)
        if res.ok then
          let s' := bumpAll s lang
          (runMain ctx net n s' (callNo + res.count)).map
            (fun r =>
              (r.1, res.events ++ Event.saved s' :: Event.posted lang mi s.img_index :: r.2))
        else some (s, res.events ++ [Event.postingError])

end Poster

/-! ## Step lemmas for the main loop -/

namespace Poster

/-- With an always-succeeding network, a call sequence is fully sent. -/
theorem sendCalls_allTrue (c0 : Nat) (cs : List Call) :
    sendCalls (fun _ => true) c0 cs = ⟨cs.map eventOfCall, cs.length, true⟩ := by
  induction cs generalizing c0 with
  | nil => rfl
  | cons c cs ih => simp [sendCalls, ih]

/-- Language-exhaustion attempt: the loop body only bumps the counter,
saves, and continues. -/
theorem runMain_skip_step (ctx : RunCtx) (net : Nat → Bool) (n : Nat) (s : PosterState)
    (callNo : Nat) (lang : Lang)
    (hlang : choose_language ctx.hRatio ctx.eRatio s.lang_counter = some lang)
    (hex : (msgsOf ctx lang).length ≤ msgIndex s lang) :
    runMain ctx net (n + 1) s callNo =
      (runMain ctx net n { s with lang_counter := s.lang_counter + 1 } callNo).map
        (fun r => (r.1, Event.skipLang lang ::
          Event.saved { s with lang_counter := s.lang_counter + 1 } :: r.2)) := by
  conv_lhs => rw [runMain]
  simp only [hlang, if_pos hex]

/-- Image-exhaustion attempt (language not exhausted): the loop body does
nothing but print and continue with the same state. -/
theorem runMain_imgskip_step (ctx : RunCtx) (net : Nat → Bool) (n : Nat) (s : PosterState)
    (callNo : Nat) (lang : Lang)
    (hlang : choose_language ctx.hRatio ctx.eRatio s.lang_counter = some lang)
    (hmsg : msgIndex s lang < (msgsOf ctx lang).length)
    (himg : ctx.images.length ≤ s.img_index) :
    runMain ctx net (n + 1) s callNo =
      (runMain ctx net n s callNo).map (fun r => (r.1, Event.skipImages :: r.2)) := by
  conv_lhs => rw [runMain]
  simp only [hlang, if_neg (Nat.not_le.mpr hmsg), if_pos himg]

/-- Successful publish attempt: all calls succeed, the three cursors are
bumped, the state is saved, and the loop continues. -/
theorem runMain_success_step (ctx : RunCtx) (net : Nat → Bool) (n : Nat) (s : PosterState)
    (callNo : Nat) (lang : Lang)
    (hlang : choose_language ctx.hRatio ctx.eRatio s.lang_counter = some lang)
    (hmsg : msgIndex s lang < (msgsOf ctx lang).length)
    (himg : s.img_index < ctx.images.length)
    (hok : (sendCalls net callNo (postCalls ctx ((msgsOf ctx lang).getD (msgIndex s lang) [])
      (ctx.images.getD s.img_index []))).ok = true) :
    runMain ctx net (n + 1) s callNo =
      (runMain ctx net n (bumpAll s lang)
          (callNo + (sendCalls net callNo (postCalls ctx
            ((msgsOf ctx lang).getD (msgIndex s lang) [])
            (ctx.images.getD s.img_index []))).count)).map
        (fun r => (r.1,
          (sendCalls net callNo (postCalls ctx ((msgsOf ctx lang).getD (msgIndex s lang) [])
            (ctx.images.getD s.img_index []))).events ++
          Event.saved (bumpAll s lang) ::
          Event.posted lang (msgIndex s lang) s.img_index :: r.2)) := by
  conv_lhs => rw [runMain]
  simp only [hlang, if_neg (Nat.not_le.mpr hmsg), if_neg (Nat.not_le.mpr himg), hok, if_true]

/-- Failing publish attempt: the loop body leaves the state untouched and
breaks after logging the error. -/
theorem runMain_fail_step (ctx : RunCtx) (net : Nat → Bool) (n : Nat) (s : PosterState)
    (callNo : Nat) (lang : Lang)
    (hlang : choose_language ctx.hRatio ctx.eRatio s.lang_counter = some lang)
    (hmsg : msgIndex s lang < (msgsOf ctx lang).length)
    (himg : s.img_index < ctx.images.length)
    (hfail : (sendCalls net callNo (postCalls ctx ((msgsOf ctx lang).getD (msgIndex s lang) [])
      (ctx.images.getD s.img_index []))).ok = false) :
    runMain ctx net (n + 1) s callNo =
      some (s, (sendCalls net callNo (postCalls ctx
        ((msgsOf ctx lang).getD (msgIndex s lang) [])
        (ctx.images.getD s.img_index []))).events ++ [Event.postingError]) := by
  conv_lhs => rw [runMain]
  simp only [hlang, if_neg (Nat.not_le.mpr hmsg), if_neg (Nat.not_le.mpr himg), hfail,
    Bool.false_eq_true, if_false]

end Poster

/-! ## Scheduler claims -/

namespace Poster

/-- C3: language selection is a pure function of the persisted counter and
the ratio pair: with total = hRatio + eRatio positive and idx = lc mod
total, the result is Hindi iff idx < hRatio, else English; and for ratio
(3, 1) the counters 0..7 select H,H,H,E,H,H,H,E. -/
theorem c3_choose_language (hRatio eRatio lc : Nat) (h : 0 < hRatio + eRatio) :
    choose_language hRatio eRatio lc =
      some (if lc % (hRatio + eRatio) < hRatio then Lang.hindi else Lang.english) ∧
    (List.range 8).map (choose_language 3 1) =
      [some Lang.hindi, some Lang.hindi, some Lang.hindi, some Lang.english,
        some Lang.hindi, some Lang.hindi, some Lang.hindi, some Lang.english] := by
  constructor
  · unfold choose_language
    rw [if_neg (by omega)]
  · decide

/-- Witness for C3 at ratio (3, 1), counter 5. -/
theorem c3_choose_language_witness :
    0 < 3 + 1 ∧
    (choose_language 3 1 5 =
      some (if 5 % (3 + 1) < 3 then Lang.hindi else Lang.english) ∧
    (List.range 8).map (choose_language 3 1) =
      [some Lang.hindi, some Lang.hindi, some Lang.hindi, some Lang.english,
        some Lang.hindi, some Lang.hindi, some Lang.hindi, some Lang.english]) :=
  ⟨by decide, c3_choose_language 3 1 5 (by decide)⟩

/-- C9: a post attempt whose selected language has an exhausted message
sequence advances the language counter by exactly 1, persists (the saved
event), leaves the two message indices and the image index unchanged, and
makes no publish call (the attempt contributes only the skip print and the
save). -/
theorem c9_language_exhaustion_skip (ctx : RunCtx) (net : Nat → Bool) (n : Nat)
    (s : PosterState) (callNo : Nat) (lang : Lang)
    (hlang : choose_language ctx.hRatio ctx.eRatio s.lang_counter = some lang)
    (hex : (msgsOf ctx lang).length ≤ msgIndex s lang) :
    runMain ctx net (n + 1) s callNo =
      (runMain ctx net n
          ⟨s.h_msg_index, s.e_msg_index, s.img_index, s.lang_counter + 1⟩ callNo).map
        (fun r => (r.1, Event.skipLang lang ::
          Event.saved ⟨s.h_msg_index, s.e_msg_index, s.img_index, s.lang_counter + 1⟩ ::
            r.2)) :=
  runMain_skip_step ctx net n s callNo lang hlang hex

/-- Witness for C9: Hindi exhausted (no Hindi units) at ratio (3, 1). -/
theorem c9_language_exhaustion_skip_witness :
    choose_language (⟨[], [['e']], [], 3, 1, false, 0⟩ : RunCtx).hRatio
        (⟨[], [['e']], [], 3, 1, false, 0⟩ : RunCtx).eRatio
        (⟨5, 0, 2, 0⟩ : PosterState).lang_counter = some Lang.hindi ∧
    (msgsOf ⟨[], [['e']], [], 3, 1, false, 0⟩ Lang.hindi).length ≤
      msgIndex ⟨5, 0, 2, 0⟩ Lang.hindi ∧
    runMain ⟨[], [['e']], [], 3, 1, false, 0⟩ (fun _ => true) (0 + 1) ⟨5, 0, 2, 0⟩ 7 =
      (runMain ⟨[], [['e']], [], 3, 1, false, 0⟩ (fun _ => true) 0 ⟨5, 0, 2, 1⟩ 7).map
        (fun r => (r.1, Event.skipLang Lang.hindi :: Event.saved ⟨5, 0, 2, 1⟩ :: r.2)) :=
  ⟨by decide, by decide,
    c9_language_exhaustion_skip ⟨[], [['e']], [], 3, 1, false, 0⟩ (fun _ => true) 0
      ⟨5, 0, 2, 0⟩ 7 Lang.hindi (by decide) (by decide)⟩

/-- C4 counterexample: with no images and no messages at all (ratio
(1, 1), one attempt), the image cursor is at the end of the pool at the
post attempt, yet the language counter still advances, because the
language-exhaustion check fires first.  This refutes the claim that no
state field changes once the image cursor has reached the end. -/
theorem c4_counterexample :
    (⟨[], [], [], 1, 1, false, 0⟩ : RunCtx).images.length ≤
      (⟨0, 0, 0, 0⟩ : PosterState).img_index ∧
    runMain ⟨[], [], [], 1, 1, false, 0⟩ (fun _ => true) 1 ⟨0, 0, 0, 0⟩ 0 =
      some (⟨0, 0, 0, 1⟩, [Event.skipLang Lang.hindi, Event.saved ⟨0, 0, 0, 1⟩]) ∧
    (⟨0, 0, 0, 1⟩ : PosterState) ≠ (⟨0, 0, 0, 0⟩ : PosterState) := by
  decide

/-- C4 amended: when a post attempt finds its selected language still has
a message available and the image cursor has reached or passed the end of
the ImagePool, the run makes no further progress: every remaining attempt
is skipped and no state field changes from that point to the end of the
run. -/
theorem c4_image_exhaustion_halts (ctx : RunCtx) (net : Nat → Bool) :
    ∀ (n : Nat) (s : PosterState) (callNo : Nat) (lang : Lang),
      choose_language ctx.hRatio ctx.eRatio s.lang_counter = some lang →
      msgIndex s lang < (msgsOf ctx lang).length →
      ctx.images.length ≤ s.img_index →
      runMain ctx net n s callNo = some (s, List.replicate n Event.skipImages) := by
  intro n
  induction n with
  | zero =>
    intro s callNo lang h1 h2 h3
    rfl
  | succ n ih =>
    intro s callNo lang h1 h2 h3
    rw [runMain_imgskip_step ctx net n s callNo lang h1 h2 h3, ih s callNo lang h1 h2 h3]
    simp [List.replicate_succ]

/-- Witness for C4 (amended): one Hindi unit, empty image pool, two
attempts. -/
theorem c4_image_exhaustion_halts_witness :
    choose_language (⟨[['h']], [], [], 1, 1, false, 0⟩ : RunCtx).hRatio
        (⟨[['h']], [], [], 1, 1, false, 0⟩ : RunCtx).eRatio
        (⟨0, 0, 0, 0⟩ : PosterState).lang_counter = some Lang.hindi ∧
    msgIndex ⟨0, 0, 0, 0⟩ Lang.hindi <
      (msgsOf ⟨[['h']], [], [], 1, 1, false, 0⟩ Lang.hindi).length ∧
    (⟨[['h']], [], [], 1, 1, false, 0⟩ : RunCtx).images.length ≤
      (⟨0, 0, 0, 0⟩ : PosterState).img_index ∧
    runMain ⟨[['h']], [], [], 1, 1, false, 0⟩ (fun _ => true) 2 ⟨0, 0, 0, 0⟩ 0 =
      some (⟨0, 0, 0, 0⟩, List.replicate 2 Event.skipImages) :=
  ⟨by decide, by decide, by decide,
    c4_image_exhaustion_halts ⟨[['h']], [], [], 1, 1, false, 0⟩ (fun _ => true) 2
      ⟨0, 0, 0, 0⟩ 0 Lang.hindi (by decide) (by decide) (by decide)⟩

/-- C7: if the publish of the selected unit/image pair fails at any
outbound call, the run aborts immediately: the trace ends with the
successfully sent call events followed by the error print, no further
attempt is made, and the final state is exactly the state before the
attempt, so the next run selects the same pair. -/
theorem c7_transmission_failure_aborts (ctx : RunCtx) (net : Nat → Bool) (n : Nat)
    (s : PosterState) (callNo : Nat) (lang : Lang)
    (hlang : choose_language ctx.hRatio ctx.eRatio s.lang_counter = some lang)
    (hmsg : msgIndex s lang < (msgsOf ctx lang).length)
    (himg : s.img_index < ctx.images.length)
    (hfail : (sendCalls net callNo (postCalls ctx ((msgsOf ctx lang).getD (msgIndex s lang) [])
      (ctx.images.getD s.img_index []))).ok = false) :
    runMain ctx net (n + 1) s callNo =
      some (s, (sendCalls net callNo (postCalls ctx
        ((msgsOf ctx lang).getD (msgIndex s lang) [])
        (ctx.images.getD s.img_index []))).events ++ [Event.postingError]) :=
  runMain_fail_step ctx net n s callNo lang hlang hmsg himg hfail

/-- Witness for C7: the first outbound call fails. -/
theorem c7_transmission_failure_aborts_witness :
    choose_language (⟨[['a']], [], [['i']], 1, 1, false, 0⟩ : RunCtx).hRatio
        (⟨[['a']], [], [['i']], 1, 1, false, 0⟩ : RunCtx).eRatio
        (⟨0, 0, 0, 0⟩ : PosterState).lang_counter = some Lang.hindi ∧
    msgIndex ⟨0, 0, 0, 0⟩ Lang.hindi <
      (msgsOf ⟨[['a']], [], [['i']], 1, 1, false, 0⟩ Lang.hindi).length ∧
    (⟨0, 0, 0, 0⟩ : PosterState).img_index <
      (⟨[['a']], [], [['i']], 1, 1, false, 0⟩ : RunCtx).images.length ∧
    (sendCalls (fun _ => false) 0 (postCalls ⟨[['a']], [], [['i']], 1, 1, false, 0⟩
      ((msgsOf ⟨[['a']], [], [['i']], 1, 1, false, 0⟩ Lang.hindi).getD
        (msgIndex ⟨0, 0, 0, 0⟩ Lang.hindi) [])
      ((⟨[['a']], [], [['i']], 1, 1, false, 0⟩ : RunCtx).images.getD
        (⟨0, 0, 0, 0⟩ : PosterState).img_index []))).ok = false ∧
    runMain ⟨[['a']], [], [['i']], 1, 1, false, 0⟩ (fun _ => false) (2 + 1) ⟨0, 0, 0, 0⟩ 0 =
      some (⟨0, 0, 0, 0⟩, (sendCalls (fun _ => false) 0
        (postCalls ⟨[['a']], [], [['i']], 1, 1, false, 0⟩
          ((msgsOf ⟨[['a']], [], [['i']], 1, 1, false, 0⟩ Lang.hindi).getD
            (msgIndex ⟨0, 0, 0, 0⟩ Lang.hindi) [])
          ((⟨[['a']], [], [['i']], 1, 1, false, 0⟩ : RunCtx).images.getD
            (⟨0, 0, 0, 0⟩ : PosterState).img_index []))).events ++ [Event.postingError]) :=
  ⟨by decide, by decide, by decide, by decide,
    c7_transmission_failure_aborts ⟨[['a']], [], [['i']], 1, 1, false, 0⟩ (fun _ => false) 2
      ⟨0, 0, 0, 0⟩ 0 Lang.hindi (by decide) (by decide) (by decide) (by decide)⟩

/-- C8: all four persisted fields are monotonically non-decreasing across
every sequence of post attempts of a run. -/
theorem c8_state_monotonic (ctx : RunCtx) (net : Nat → Bool) :
    ∀ (n : Nat) (s : PosterState) (callNo : Nat) (s' : PosterState) (evs : List Event),
      runMain ctx net n s callNo = some (s', evs) →
      s.h_msg_index ≤ s'.h_msg_index ∧ s.e_msg_index ≤ s'.e_msg_index ∧
        s.img_index ≤ s'.img_index ∧ s.lang_counter ≤ s'.lang_counter := by
  intro n
  induction n with
  | zero =>
    intro s callNo s' evs h
    have h' : (some (s, ([] : List Event)) : Option (PosterState × List Event)) =
        some (s', evs) := h
    rcases Option.some.injEq .. ▸ h' with h''
    cases h''
    exact ⟨Nat.le_refl _, Nat.le_refl _, Nat.le_refl _, Nat.le_refl _⟩
  | succ n ih =>
    intro s callNo s' evs h
    cases hlang : choose_language ctx.hRatio ctx.eRatio s.lang_counter with
    | none =>
      rw [runMain, hlang] at h
      cases h
    | some lang =>
      by_cases hex : (msgsOf ctx lang).length ≤ msgIndex s lang
      · rw [runMain_skip_step ctx net n s callNo lang hlang hex] at h
        rcases Option.map_eq_some'.mp h with ⟨⟨s1, evs1⟩, hrun, hpair⟩
        have hs1 : s1 = s' := congrArg Prod.fst hpair
        subst hs1
        have := ih _ callNo _ _ hrun
        simp only at this
        exact ⟨this.1, this.2.1, this.2.2.1, Nat.le_trans (Nat.le_succ _) this.2.2.2⟩
      · by_cases himg : ctx.images.length ≤ s.img_index
        · rw [runMain_imgskip_step ctx net n s callNo lang hlang (Nat.not_le.mp hex) himg] at h
          rcases Option.map_eq_some'.mp h with ⟨⟨s1, evs1⟩, hrun, hpair⟩
          have hs1 : s1 = s' := congrArg Prod.fst hpair
          subst hs1
          exact ih _ callNo _ _ hrun
        · by_cases hok : (sendCalls net callNo (postCalls ctx
              ((msgsOf ctx lang).getD (msgIndex s lang) [])
              (ctx.images.getD s.img_index []))).ok = true
          · rw [runMain_success_step ctx net n s callNo lang hlang (Nat.not_le.mp hex)
              (Nat.not_le.mp himg) hok] at h
            rcases Option.map_eq_some'.mp h with ⟨⟨s1, evs1⟩, hrun, hpair⟩
            have hs1 : s1 = s' := congrArg Prod.fst hpair
            subst hs1
            have h2 := ih _ _ _ _ hrun
            cases lang <;>
              · simp only [bumpAll] at h2
                exact ⟨by omega, by omega, by omega, by omega⟩
          · rw [runMain_fail_step ctx net n s callNo lang hlang (Nat.not_le.mp hex)
              (Nat.not_le.mp himg) (Bool.not_eq_true _ ▸ hok)] at h
            have hs1 : s = s' := congrArg Prod.fst (Option.some.inj h)
            subst hs1
            exact ⟨Nat.le_refl _, Nat.le_refl _, Nat.le_refl _, Nat.le_refl _⟩

/-- Witness for C8: the end-to-end scenario run. -/
theorem c8_state_monotonic_witness :
    runMain ⟨[['h'], ['i']], [['e']], [['x'], ['y'], ['z']], 1, 1, false, 0⟩
        (fun _ => true) 4 ⟨0, 0, 0, 0⟩ 0 =
      some (⟨2, 1, 3, 4⟩,
        [Event.sentPhoto ['x'] none, Event.sentText ['h'], Event.saved ⟨1, 0, 1, 1⟩,
          Event.posted Lang.hindi 0 0,
          Event.sentPhoto ['y'] none, Event.sentText ['e'], Event.saved ⟨1, 1, 2, 2⟩,
          Event.posted Lang.english 0 1,
          Event.sentPhoto ['z'] none, Event.sentText ['i'], Event.saved ⟨2, 1, 3, 3⟩,
          Event.posted Lang.hindi 1 2,
          Event.skipLang Lang.english, Event.saved ⟨2, 1, 3, 4⟩]) ∧
    (0 ≤ 2 ∧ 0 ≤ 1 ∧ 0 ≤ 3 ∧ 0 ≤ 4) :=
  ⟨by decide,
    c8_state_monotonic ⟨[['h'], ['i']], [['e']], [['x'], ['y'], ['z']], 1, 1, false, 0⟩
      (fun _ => true) 4 ⟨0, 0, 0, 0⟩ 0 ⟨2, 1, 3, 4⟩
      [Event.sentPhoto ['x'] none, Event.sentText ['h'], Event.saved ⟨1, 0, 1, 1⟩,
        Event.posted Lang.hindi 0 0,
        Event.sentPhoto ['y'] none, Event.sentText ['e'], Event.saved ⟨1, 1, 2, 2⟩,
        Event.posted Lang.english 0 1,
        Event.sentPhoto ['z'] none, Event.sentText ['i'], Event.saved ⟨2, 1, 3, 3⟩,
        Event.posted Lang.hindi 1 2,
        Event.skipLang Lang.english, Event.saved ⟨2, 1, 3, 4⟩] (by decide)⟩

/-- The scheduling-decision events of a trace: posts, skips and the error
print, excluding the send and save events. -/
def isDecision : Event → Bool
  | Event.posted _ _ _ => true
  | Event.skipLang _ => true
  | Event.skipImages => true
  | Event.postingError => true
  | _ => false

/-- Send events contribute no scheduling decisions to a filtered trace. -/
theorem filter_isDecision_callEvents (cs : List Call) :
    (cs.map eventOfCall).filter isDecision = [] := by
  induction cs with
  | nil => rfl
  | cons c cs ih =>
    cases c <;> simp [eventOfCall, isDecision, ih]

/-- C1: with two Hindi units, one English unit, three images, ratio
(1, 1) and posts_per_run 4, every publish succeeding, the run makes
exactly three successful posts pairing Hindi unit 0 with image 0, English
unit 0 with image 1 and Hindi unit 1 with image 2, in the selection order
H, E, H, then skips the exhausted English attempt (only the counter
advances), and the final persisted state is Hindi index 2, English index
1, image index 3, counter 4 (for any unit and image contents and any
caption configuration). -/
theorem c1_end_to_end (h0 h1 e0 i0 i1 i2 : List Char) (pref : Bool) (capLen : Nat) :
    (runMain ⟨[h0, h1], [e0], [i0, i1, i2], 1, 1, pref, capLen⟩ (fun _ => true) 4
        ⟨0, 0, 0, 0⟩ 0).map Prod.fst = some ⟨2, 1, 3, 4⟩ ∧
    (runMain ⟨[h0, h1], [e0], [i0, i1, i2], 1, 1, pref, capLen⟩ (fun _ => true) 4
        ⟨0, 0, 0, 0⟩ 0).map (fun r => r.2.filter isDecision) =
      some [Event.posted Lang.hindi 0 0, Event.posted Lang.english 0 1,
        Event.posted Lang.hindi 1 2, Event.skipLang Lang.english] := by
  have hok : ∀ (c0 : Nat) (cs : List Call), (sendCalls (fun _ => true) c0 cs).ok = true := by
    intro c0 cs
    rw [sendCalls_allTrue]
  have st1 := runMain_success_step ⟨[h0, h1], [e0], [i0, i1, i2], 1, 1, pref, capLen⟩
    (fun _ => true) 3 ⟨0, 0, 0, 0⟩ 0 Lang.hindi (by simp [choose_language])
    (by simp [msgsOf, msgIndex]) (by simp) (hok 0 _)
  have st2 := fun c : Nat =>
    runMain_success_step ⟨[h0, h1], [e0], [i0, i1, i2], 1, 1, pref, capLen⟩
      (fun _ => true) 2 ⟨1, 0, 1, 1⟩ c Lang.english (by simp [choose_language])
      (by simp [msgsOf, msgIndex]) (by simp) (hok c _)
  have st3 := fun c : Nat =>
    runMain_success_step ⟨[h0, h1], [e0], [i0, i1, i2], 1, 1, pref, capLen⟩
      (fun _ => true) 1 ⟨1, 1, 2, 2⟩ c Lang.hindi (by simp [choose_language])
      (by simp [msgsOf, msgIndex]) (by simp) (hok c _)
  have st4 := fun c : Nat =>
    runMain_skip_step ⟨[h0, h1], [e0], [i0, i1, i2], 1, 1, pref, capLen⟩
      (fun _ => true) 0 ⟨2, 1, 3, 3⟩ c Lang.english (by simp [choose_language])
      (by simp [msgsOf, msgIndex])
  have hb1 : bumpAll ⟨0, 0, 0, 0⟩ Lang.hindi = (⟨1, 0, 1, 1⟩ : PosterState) := rfl
  have hb2 : bumpAll ⟨1, 0, 1, 1⟩ Lang.english = (⟨1, 1, 2, 2⟩ : PosterState) := rfl
  have hb3 : bumpAll ⟨1, 1, 2, 2⟩ Lang.hindi = (⟨2, 1, 3, 3⟩ : PosterState) := rfl
  have hbase : ∀ c : Nat, runMain ⟨[h0, h1], [e0], [i0, i1, i2], 1, 1, pref, capLen⟩
      (fun _ => true) 0 ⟨2, 1, 3, 4⟩ c = some (⟨2, 1, 3, 4⟩, []) := fun _ => rfl
  rw [st1, hb1, st2, hb2, st3, hb3, st4]
  simp [hbase, sendCalls_allTrue, filter_isDecision_callEvents, isDecision, msgIndex, msgsOf]

end Poster

namespace Poster

-- Concrete evaluations checking the model against hand-computed Python
-- behavior.
example : splitWords ['a', 'b', ' ', 'c'] = [['a', 'b'], ['c']] := by decide
example : stripWS [' ', 'a', ' '] = ['a'] := by decide
example : packChunks 50 ['a', 'b', '\n', '\n', 'c'] = [['a', 'b', '\n', '\n', 'c']] := by decide
example : packChunks 3 ['a', 'b', 'c', 'd', ' ', 'e', 'f'] = [['a', 'b', 'c', 'd'], ['e', 'f']] := by decide
example : packChunks 5 ['a', 'b', '\n', '\n', 'c', 'd'] = [['a', 'b'], ['c', 'd']] := by decide
example : packChunks 6 ['a', 'b', '\n', '\n', 'c', 'd'] = [['a', 'b', '\n', '\n', 'c', 'd']] := by decide
example : paragraphsOf ['a', '\r', '\n', '\n', '\n', 'b'] = [['a'], ['b']] := by decide

example :
    (runMain ⟨[['h'],['i']], [['e']], [['x'], ['y'], ['z']], 1, 1, false, 0⟩
        (fun _ => true) 4 ⟨0, 0, 0, 0⟩ 0).map Prod.fst = some ⟨2, 1, 3, 4⟩ := by
  decide

example :
    (runMain ⟨[['h'], ['i']], [['e']], [['x'], ['y'], ['z']], 3, 1, false, 0⟩
        (fun _ => false) 4 ⟨0, 0, 0, 0⟩ 0) =
      some (⟨0, 0, 0, 0⟩, [Event.postingError]) := by
  decide

end Poster

/-! ## Chunk packer invariants (claims C2 and C10) -/

namespace Poster

/-- No whitespace character occurs in t (t is a single word, possibly
empty). -/
def wsFree (t : List Char) : Prop := ∀ c ∈ t, isWS c = false

/-- Some non-whitespace character occurs in t. -/
def hasSolid (t : List Char) : Prop := ∃ c ∈ t, isWS c = false

/-- The first and the last character of t (when they exist) are
non-whitespace: t carries no leading or trailing whitespace. -/
def edges (t : List Char) : Prop :=
  (∀ c, t.head? = some c → isWS c = false) ∧ (∀ c, t.getLast? = some c → isWS c = false)

/-- Invariant of the running buffers tmp and cur of the packer: non-empty,
trimmed at both ends, and either within the length budget or a single
whitespace-free word. -/
def goodCur (maxLen : Nat) (t : List Char) : Prop :=
  t ≠ [] ∧ edges t ∧ (t.length ≤ maxLen ∨ wsFree t)

/-- What every completed chunk satisfies: it contains a non-whitespace
character, and it fits the budget unless it is a single whitespace-free
word. -/
def goodChunk (maxLen : Nat) (t : List Char) : Prop :=
  hasSolid t ∧ (t.length ≤ maxLen ∨ wsFree t)

/-- The head of a dropWhile result falsifies the test. -/
theorem dropWhile_head_not {p : Char → Bool} :
    ∀ {l : List Char} {c : Char} {t : List Char}, l.dropWhile p = c :: t → p c = false := by
  intro l
  induction l with
  | nil => intro c t h; cases h
  | cons a l ih =>
    intro c t h
    rw [List.dropWhile_cons] at h
    by_cases hpa : p a = true
    · rw [if_pos hpa] at h
      exact ih h
    · rw [if_neg hpa] at h
      cases h
      simpa using hpa

/-- A non-empty dropWhile result keeps the original last element. -/
theorem getLast?_dropWhile_ne {p : Char → Bool} :
    ∀ {l : List Char}, l.dropWhile p ≠ [] → (l.dropWhile p).getLast? = l.getLast? := by
  intro l
  induction l with
  | nil => intro h; exact absurd rfl h
  | cons a l ih =>
    intro h
    rw [List.dropWhile_cons]
    by_cases hpa : p a = true
    · rw [List.dropWhile_cons, if_pos hpa] at h
      rw [if_pos hpa, ih h]
      have hl : l ≠ [] := by
        intro he
        rw [he] at h
        exact h rfl
      cases l with
      | nil => exact absurd rfl hl
      | cons b t => exact (List.getLast?_cons_cons).symm
    · rw [if_neg hpa]

/-- A non-whitespace member survives dropWhile isWS. -/
theorem solid_mem_dropWhile {c : Char} (hc : isWS c = false) :
    ∀ {l : List Char}, c ∈ l → c ∈ l.dropWhile isWS := by
  intro l
  induction l with
  | nil => intro h; cases h
  | cons a l ih =>
    intro h
    rw [List.dropWhile_cons]
    by_cases hpa : isWS a = true
    · rw [if_pos hpa]
      rcases List.mem_cons.mp h with h1 | h1
      · subst h1; rw [hc] at hpa; cases hpa
      · exact ih h1
    · rw [if_neg hpa]
      exact h

/-- Stripping a text with a non-whitespace character is non-empty. -/
theorem stripWS_ne_nil_of_hasSolid {s : List Char} (h : hasSolid s) : stripWS s ≠ [] := by
  rcases h with ⟨c, hc, hcw⟩
  have h1 : c ∈ s.dropWhile isWS := solid_mem_dropWhile hcw hc
  have h2 : c ∈ (s.dropWhile isWS).reverse := List.mem_reverse.mpr h1
  have h3 : c ∈ (s.dropWhile isWS).reverse.dropWhile isWS := solid_mem_dropWhile hcw h2
  intro he
  unfold stripWS at he
  rw [List.reverse_eq_nil_iff] at he
  rw [he] at h3
  cases h3

/-- A non-empty stripped text has non-whitespace first and last
characters. -/
theorem edges_stripWS {s : List Char} (h : stripWS s ≠ []) : edges (stripWS s) := by
  unfold stripWS at h ⊢
  constructor
  · intro c hc
    rw [List.head?_reverse] at hc
    have hne : (s.dropWhile isWS).reverse.dropWhile isWS ≠ [] := by
      intro he
      rw [he] at h
      exact h rfl
    rw [getLast?_dropWhile_ne hne, List.getLast?_eq_head?_reverse, List.reverse_reverse] at hc
    cases hd : s.dropWhile isWS with
    | nil => rw [hd] at hc; cases hc
    | cons a t =>
      rw [hd] at hc
      have : a = c := by
        have := hc
        simp only [List.head?_cons, Option.some.injEq] at this
        exact this
      subst this
      exact dropWhile_head_not hd
  · intro c hc
    rw [List.getLast?_eq_head?_reverse, List.reverse_reverse] at hc
    cases hd : (s.dropWhile isWS).reverse.dropWhile isWS with
    | nil => rw [hd] at hc; cases hc
    | cons a t =>
      rw [hd] at hc
      have : a = c := by
        have := hc
        simp only [List.head?_cons, Option.some.injEq] at this
        exact this
      subst this
      exact dropWhile_head_not hd

/-- Stripping is the identity on texts already trimmed at both ends. -/
theorem stripWS_of_edges {t : List Char} (h : edges t) : stripWS t = t := by
  have h1 : t.dropWhile isWS = t := by
    cases ht : t with
    | nil => rfl
    | cons a l =>
      have ha : isWS a = false := h.1 a (by rw [ht]; rfl)
      rw [List.dropWhile_cons, if_neg (by simp [ha])]
  have h2 : t.reverse.dropWhile isWS = t.reverse := by
    cases hr : t.reverse with
    | nil => rfl
    | cons b m =>
      have hb : isWS b = false := h.2 b (by rw [List.getLast?_eq_head?_reverse, hr]; rfl)
      rw [List.dropWhile_cons, if_neg (by simp [hb])]
  unfold stripWS
  rw [h1, h2, List.reverse_reverse]

/-- Non-empty whitespace-free texts are trimmed. -/
theorem edges_of_wsFree {t : List Char} (hne : t ≠ []) (hw : wsFree t) : edges t := by
  constructor
  · intro c hc
    exact hw c (List.mem_of_mem_head? (by rw [hc]; rfl))
  · intro c hc
    apply hw c
    rw [List.getLast?_eq_head?_reverse] at hc
    exact List.mem_reverse.mp (List.mem_of_mem_head? (by rw [hc]; rfl))

/-- A good buffer has a non-whitespace character. -/
theorem hasSolid_of_goodCur {maxLen : Nat} {t : List Char} (h : goodCur maxLen t) :
    hasSolid t := by
  rcases h with ⟨hne, he, -⟩
  cases ht : t.head? with
  | none =>
    rw [List.head?_eq_none_iff] at ht
    exact absurd ht hne
  | some a =>
    exact ⟨a, List.mem_of_mem_head? (by rw [ht]; rfl), he.1 a ht⟩

/-- A good buffer flushed to the chunk list is a good chunk. -/
theorem goodChunk_of_goodCur {maxLen : Nat} {t : List Char} (h : goodCur maxLen t) :
    goodChunk maxLen t :=
  ⟨hasSolid_of_goodCur h, h.2.2⟩

/-- Joining two trimmed non-empty texts around any middle stays trimmed. -/
theorem edges_append {a b : List Char} (mid : List Char) (ha : a ≠ []) (hb : b ≠ [])
    (ea : edges a) (eb : edges b) : edges (a ++ (mid ++ b)) := by
  constructor
  · intro c hc
    rw [List.head?_append_of_ne_nil a ha] at hc
    exact ea.1 c hc
  · intro c hc
    rw [List.getLast?_append_of_ne_nil _ (by
      intro he
      rcases List.append_eq_nil.mp he with ⟨-, h2⟩
      exact hb h2), List.getLast?_append_of_ne_nil _ hb] at hc
    exact eb.2 c hc

end Poster

namespace Poster

/-- Dropping a leading whitespace character commutes with strip. -/
theorem stripWS_cons_ws {c : Char} {s : List Char} (hc : isWS c = true) :
    stripWS (c :: s) = stripWS s := by
  unfold stripWS
  rw [List.dropWhile_cons, if_pos hc]

/-- Appending a word to a trimmed non-empty buffer with a single space and
stripping is the plain append: the strip of poster.py line 158 is a no-op
there. -/
theorem stripWS_buffer_append {tmp w : List Char} (htmp : tmp ≠ []) (he : edges tmp)
    (hw : w ≠ []) (hwf : wsFree w) :
    stripWS (tmp ++ ' ' :: w) = tmp ++ ' ' :: w :=
  stripWS_of_edges (edges_append [' '] htmp hw he (edges_of_wsFree hw hwf))

/-- With an empty buffer, the strip reduces the space-prefixed word to the
word itself. -/
theorem stripWS_space_word {w : List Char} (hw : w ≠ []) (hwf : wsFree w) :
    stripWS (' ' :: w) = w := by
  rw [stripWS_cons_ws (by decide)]
  exact stripWS_of_edges (edges_of_wsFree hw hwf)

/-- Every word produced by the Python split() is non-empty and
whitespace-free. -/
theorem splitWordsAux_words :
    ∀ (s acc : List Char), wsFree acc →
      ∀ w ∈ splitWordsAux acc s, w ≠ [] ∧ wsFree w := by
  intro s
  induction s with
  | nil =>
    intro acc hacc w hw
    unfold splitWordsAux at hw
    by_cases ha : acc = []
    · rw [if_pos ha] at hw
      cases hw
    · rw [if_neg ha] at hw
      rcases List.mem_singleton.mp hw with rfl
      refine ⟨by simpa using ha, ?_⟩
      intro c hc
      exact hacc c (List.mem_reverse.mp hc)
  | cons c cs ih =>
    intro acc hacc w hw
    unfold splitWordsAux at hw
    by_cases hc : isWS c = true
    · rw [if_pos hc] at hw
      by_cases ha : acc = []
      · rw [if_pos ha] at hw
        exact ih [] (by intro x hx; cases hx) w hw
      · rw [if_neg ha] at hw
        rcases List.mem_cons.mp hw with h1 | h1
        · subst h1
          exact ⟨by simpa using ha, fun x hx => hacc x (List.mem_reverse.mp hx)⟩
        · exact ih [] (by intro x hx; cases hx) w h1
    · rw [if_neg hc] at hw
      refine ih (c :: acc) ?_ w hw
      intro x hx
      rcases List.mem_cons.mp hx with h1 | h1
      · subst h1
        simpa using hc
      · exact hacc x h1

/-- The Python split() of a text holding a solid character, or run with a
non-empty accumulator, produces at least one word. -/
theorem splitWordsAux_ne_nil :
    ∀ (s acc : List Char), hasSolid s ∨ acc ≠ [] → splitWordsAux acc s ≠ [] := by
  intro s
  induction s with
  | nil =>
    intro acc h
    rcases h with h | h
    · rcases h with ⟨c, hc, -⟩
      cases hc
    · unfold splitWordsAux
      rw [if_neg h]
      intro he
      cases he
  | cons c cs ih =>
    intro acc h
    unfold splitWordsAux
    by_cases hc : isWS c = true
    · rw [if_pos hc]
      by_cases ha : acc = []
      · rw [if_pos ha]
        apply ih
        left
        rcases h with h | h
        · rcases h with ⟨x, hx, hxw⟩
          rcases List.mem_cons.mp hx with h1 | h1
          · subst h1
            rw [hc] at hxw
            cases hxw
          · exact ⟨x, h1, hxw⟩
        · exact absurd ha h
      · rw [if_neg ha]
        intro he
        cases he
    · rw [if_neg hc]
      apply ih
      right
      intro he
      cases he

/-- The invariant of the word loop (poster.py 155-163 and 174-182): good
chunks stay good, the running buffer stays good, and the buffer only ends
empty if it began empty with no words to add. -/
theorem addWords_inv (maxLen : Nat) :
    ∀ (ws chunks : List (List Char)) (tmp : List Char),
      (∀ w ∈ ws, w ≠ [] ∧ wsFree w) →
      (∀ c ∈ chunks, goodChunk maxLen c) →
      (tmp = [] ∨ goodCur maxLen tmp) →
      (∀ c ∈ (addWords maxLen chunks tmp ws).1, goodChunk maxLen c) ∧
        ((addWords maxLen chunks tmp ws).2 = [] ∨
          goodCur maxLen (addWords maxLen chunks tmp ws).2) ∧
        ((addWords maxLen chunks tmp ws).2 = [] → tmp = [] ∧ ws = []) := by
  intro ws
  induction ws with
  | nil =>
    intro chunks tmp hws hch htmp
    exact ⟨hch, htmp, fun h => ⟨h, rfl⟩⟩
  | cons w ws ih =>
    intro chunks tmp hws hch htmp
    obtain ⟨hwne, hwf⟩ := hws w (List.mem_cons_self w ws)
    have hws' : ∀ x ∈ ws, x ≠ [] ∧ wsFree x := fun x hx => hws x (List.mem_cons_of_mem w hx)
    unfold addWords
    by_cases hcond : tmp.length + (if tmp = [] then 0 else 1) + w.length ≤ maxLen
    · rw [if_pos hcond]
      rcases htmp with htmp | htmp
      · subst htmp
        rw [show (([] : List Char) ++ ' ' :: w) = ' ' :: w from rfl,
          stripWS_space_word hwne hwf]
        have H := ih chunks w hws' hch
          (Or.inr ⟨hwne, edges_of_wsFree hwne hwf, Or.inr hwf⟩)
        exact ⟨H.1, H.2.1, fun hnil => absurd (H.2.2 hnil).1 hwne⟩
      · have htne := htmp.1
        rw [stripWS_buffer_append htne htmp.2.1 hwne hwf]
        have hjoin : (tmp ++ ' ' :: w) ≠ [] := by
          intro he
          rcases List.append_eq_nil.mp he with ⟨h1, -⟩
          exact htne h1
        have hlen : (tmp ++ ' ' :: w).length ≤ maxLen := by
          rw [if_neg htne] at hcond
          simp only [List.length_append, List.length_cons]
          omega
        have H := ih chunks (tmp ++ ' ' :: w) hws' hch
          (Or.inr ⟨hjoin, edges_append [' '] htne hwne htmp.2.1 (edges_of_wsFree hwne hwf),
            Or.inl hlen⟩)
        exact ⟨H.1, H.2.1, fun hnil => absurd (H.2.2 hnil).1 hjoin⟩
    · rw [if_neg hcond]
      by_cases htne : tmp = []
      · rw [if_pos htne]
        have H := ih chunks w hws' hch
          (Or.inr ⟨hwne, edges_of_wsFree hwne hwf, Or.inr hwf⟩)
        exact ⟨H.1, H.2.1, fun hnil => absurd (H.2.2 hnil).1 hwne⟩
      · rw [if_neg htne]
        rcases htmp with htmp | htmp
        · exact absurd htmp htne
        · have hch' : ∀ c ∈ chunks ++ [tmp], goodChunk maxLen c := by
            intro c hc
            rcases List.mem_append.mp hc with h1 | h1
            · exact hch c h1
            · rcases List.mem_singleton.mp h1 with rfl
              exact goodChunk_of_goodCur htmp
          have H := ih (chunks ++ [tmp]) w hws' hch'
            (Or.inr ⟨hwne, edges_of_wsFree hwne hwf, Or.inr hwf⟩)
          exact ⟨H.1, H.2.1, fun hnil => absurd (H.2.2 hnil).1 hwne⟩

end Poster

namespace Poster

/-- A non-whitespace member of the text survives the newline-collapsing
substitution. -/
theorem solid_mem_collapseNLAux {c : Char} (hc : isWS c = false) :
    ∀ (s buf : List Char) (b : Bool), c ∈ s → c ∈ collapseNLAux buf b s := by
  intro s
  induction s with
  | nil =>
    intro buf b h
    cases h
  | cons a l ih =>
    intro buf b h
    unfold collapseNLAux
    by_cases ha : isWS a = true
    · rw [if_pos ha]
      apply ih
      rcases List.mem_cons.mp h with h1 | h1
      · subst h1
        rw [hc] at ha
        cases ha
      · exact h1
    · rw [if_neg ha]
      rcases List.mem_cons.mp h with h1 | h1
      · subst h1
        exact List.mem_append_right _ (List.mem_cons_self _ _)
      · exact List.mem_append_right _ (List.mem_cons_of_mem _ (ih [] false h1))

/-- The paragraph cleaning keeps some non-whitespace character. -/
theorem hasSolid_collapseNLSpace {s : List Char} (h : hasSolid s) :
    hasSolid (collapseNLSpace s) := by
  rcases h with ⟨c, hc, hcw⟩
  exact ⟨c, solid_mem_collapseNLAux hcw s [] false hc, hcw⟩

/-- Every paragraph of the packer contains a non-whitespace character. -/
theorem paragraphsOf_solid {text p : List Char} (hp : p ∈ paragraphsOf text) :
    hasSolid p := by
  unfold paragraphsOf at hp
  rw [List.mem_filter] at hp
  obtain ⟨hmem, hne⟩ := hp
  rw [List.mem_map] at hmem
  obtain ⟨q, -, hq⟩ := hmem
  subst hq
  have hnn : stripWS q ≠ [] := by
    intro he
    rw [he] at hne
    cases hne
  have he := edges_stripWS hnn
  cases hh : (stripWS q).head? with
  | none =>
    rw [List.head?_eq_none_iff] at hh
    exact absurd hh hnn
  | some a =>
    exact ⟨a, List.mem_of_mem_head? (by rw [hh]; rfl), he.1 a hh⟩

/-- The paragraph-loop body preserves the packer invariant. -/
theorem packStep_inv (maxLen : Nat) (st : List (List Char) × List Char) (para : List Char)
    (hp : hasSolid para)
    (h1 : ∀ c ∈ st.1, goodChunk maxLen c)
    (h2 : st.2 = [] ∨ goodCur maxLen st.2) :
    (∀ c ∈ (packStep maxLen st para).1, goodChunk maxLen c) ∧
      ((packStep maxLen st para).2 = [] ∨ goodCur maxLen (packStep maxLen st para).2) := by
  have hpcs : hasSolid (stripWS (collapseNLSpace para)) := by
    have h0 := hasSolid_collapseNLSpace hp
    have hnn := stripWS_ne_nil_of_hasSolid h0
    have he := edges_stripWS hnn
    cases hh : (stripWS (collapseNLSpace para)).head? with
    | none =>
      rw [List.head?_eq_none_iff] at hh
      exact absurd hh hnn
    | some a =>
      exact ⟨a, List.mem_of_mem_head? (by rw [hh]; rfl), he.1 a hh⟩
  have hpcne : stripWS (collapseNLSpace para) ≠ [] :=
    stripWS_ne_nil_of_hasSolid (hasSolid_collapseNLSpace hp)
  have hpce : edges (stripWS (collapseNLSpace para)) := edges_stripWS hpcne
  have hwords : ∀ w ∈ splitWords (stripWS (collapseNLSpace para)), w ≠ [] ∧ wsFree w :=
    fun w hw => splitWordsAux_words _ [] (by intro x hx; cases hx) w hw
  unfold packStep
  by_cases hcur : st.2 = []
  · rw [if_pos hcur]
    by_cases hfit : (stripWS (collapseNLSpace para)).length ≤ maxLen
    · rw [if_pos hfit]
      exact ⟨h1, Or.inr ⟨hpcne, hpce, Or.inl hfit⟩⟩
    · rw [if_neg hfit]
      have H := addWords_inv maxLen (splitWords (stripWS (collapseNLSpace para)))
        st.1 [] hwords h1 (Or.inl rfl)
      exact ⟨H.1, H.2.1⟩
  · rw [if_neg hcur]
    rcases h2 with h2 | h2
    · exact absurd h2 hcur
    · by_cases hfit : (st.2 ++ '\n' :: '\n' :: stripWS (collapseNLSpace para)).length ≤ maxLen
      · rw [if_pos hfit]
        refine ⟨h1, Or.inr ⟨?_, ?_, Or.inl hfit⟩⟩
        · intro he
          rcases List.append_eq_nil.mp he with ⟨ha, -⟩
          exact hcur ha
        · exact edges_append ['\n', '\n'] hcur hpcne h2.2.1 hpce
      · rw [if_neg hfit]
        have hch2 : ∀ c ∈ st.1 ++ [st.2], goodChunk maxLen c := by
          intro c hc
          rcases List.mem_append.mp hc with hc1 | hc1
          · exact h1 c hc1
          · rcases List.mem_singleton.mp hc1 with rfl
            exact goodChunk_of_goodCur h2
        by_cases hfit2 : (stripWS (collapseNLSpace para)).length ≤ maxLen
        · rw [if_pos hfit2]
          exact ⟨hch2, Or.inr ⟨hpcne, hpce, Or.inl hfit2⟩⟩
        · rw [if_neg hfit2]
          have H := addWords_inv maxLen (splitWords (stripWS (collapseNLSpace para)))
            (st.1 ++ [st.2]) [] hwords hch2 (Or.inl rfl)
          exact ⟨H.1, H.2.1⟩

/-- Folding the paragraph loop preserves the packer invariant. -/
theorem foldl_packStep_inv (maxLen : Nat) :
    ∀ (ps : List (List Char)) (st : List (List Char) × List Char),
      (∀ p ∈ ps, hasSolid p) →
      (∀ c ∈ st.1, goodChunk maxLen c) →
      (st.2 = [] ∨ goodCur maxLen st.2) →
      (∀ c ∈ (ps.foldl (packStep maxLen) st).1, goodChunk maxLen c) ∧
        ((ps.foldl (packStep maxLen) st).2 = [] ∨
          goodCur maxLen (ps.foldl (packStep maxLen) st).2) := by
  intro ps
  induction ps with
  | nil =>
    intro st hp h1 h2
    exact ⟨h1, h2⟩
  | cons p ps ih =>
    intro st hp h1 h2
    rw [List.foldl_cons]
    have hstep := packStep_inv maxLen st p (hp p (List.mem_cons_self p ps)) h1 h2
    exact ih _ (fun q hq => hp q (List.mem_cons_of_mem p hq)) hstep.1 hstep.2

/-- Every chunk produced by split_and_send_text contains a non-whitespace
character and fits the budget unless it is a single whitespace-free
word. -/
theorem packChunks_good (maxLen : Nat) (text : List Char) :
    ∀ ch ∈ packChunks maxLen text, goodChunk maxLen ch := by
  intro ch hch
  have H := foldl_packStep_inv maxLen (paragraphsOf text) ([], [])
    (fun p hp => paragraphsOf_solid hp) (by intro c hc; cases hc) (Or.inl rfl)
  unfold packChunks at hch
  by_cases h2 : ((paragraphsOf text).foldl (packStep maxLen) ([], [])).2 = []
  · rw [if_pos h2] at hch
    exact H.1 ch hch
  · rw [if_neg h2] at hch
    rcases List.mem_append.mp hch with h | h
    · exact H.1 ch h
    · rcases List.mem_singleton.mp h with rfl
      rcases H.2 with h' | h'
      · exact absurd h' h2
      · exact goodChunk_of_goodCur h'

/-- The words of the text exactly as the packer derives them: the
Python-split words of each cleaned paragraph, in reading order. -/
def cleanWords (text : List Char) : List (List Char) :=
  (paragraphsOf text).flatMap (fun p => splitWords (stripWS (collapseNLSpace p)))

/-- Stripping never lengthens a text. -/
theorem length_stripWS_le (s : List Char) : (stripWS s).length ≤ s.length := by
  unfold stripWS
  have h1 : ((s.dropWhile isWS).reverse.dropWhile isWS).length ≤
      (s.dropWhile isWS).reverse.length := (List.dropWhile_sublist _).length_le
  have h2 : (s.dropWhile isWS).length ≤ s.length := (List.dropWhile_sublist _).length_le
  simp only [List.length_reverse] at h1 ⊢
  omega

/-- Membership version of the word-loop invariant: every chunk the word
loop flushes over budget is one of the supplied words, verbatim. -/
theorem addWords_words_inv (maxLen : Nat) (W : List (List Char)) :
    ∀ (ws chunks : List (List Char)) (tmp : List Char),
      (∀ w ∈ ws, w ∈ W) →
      (∀ c ∈ chunks, c.length ≤ maxLen ∨ c ∈ W) →
      (tmp.length ≤ maxLen ∨ tmp ∈ W) →
      (∀ c ∈ (addWords maxLen chunks tmp ws).1, c.length ≤ maxLen ∨ c ∈ W) ∧
        ((addWords maxLen chunks tmp ws).2.length ≤ maxLen ∨
          (addWords maxLen chunks tmp ws).2 ∈ W) := by
  intro ws
  induction ws with
  | nil =>
    intro chunks tmp hws hch htmp
    exact ⟨hch, htmp⟩
  | cons w ws ih =>
    intro chunks tmp hws hch htmp
    have hwW := hws w (List.mem_cons_self w ws)
    have hws' : ∀ x ∈ ws, x ∈ W := fun x hx => hws x (List.mem_cons_of_mem w hx)
    unfold addWords
    by_cases hcond : tmp.length + (if tmp = [] then 0 else 1) + w.length ≤ maxLen
    · rw [if_pos hcond]
      apply ih _ _ hws' hch
      left
      by_cases ht : tmp = []
      · subst ht
        rw [show (([] : List Char) ++ ' ' :: w) = ' ' :: w from rfl,
          stripWS_cons_ws (by decide)]
        have h1 := length_stripWS_le w
        simp only [List.length_nil, if_pos rfl] at hcond
        omega
      · have h1 := length_stripWS_le (tmp ++ ' ' :: w)
        rw [if_neg ht] at hcond
        simp only [List.length_append, List.length_cons] at h1
        omega
    · rw [if_neg hcond]
      by_cases ht : tmp = []
      · rw [if_pos ht]
        exact ih _ _ hws' hch (Or.inr hwW)
      · rw [if_neg ht]
        apply ih _ _ hws'
        · intro c hc
          rcases List.mem_append.mp hc with h1 | h1
          · exact hch c h1
          · rcases List.mem_singleton.mp h1 with rfl
            exact htmp
        · exact Or.inr hwW

/-- Membership version of the paragraph-loop invariant. -/
theorem packStep_words_inv (maxLen : Nat) (W : List (List Char))
    (st : List (List Char) × List Char) (para : List Char)
    (hwords : ∀ w ∈ splitWords (stripWS (collapseNLSpace para)), w ∈ W)
    (h1 : ∀ c ∈ st.1, c.length ≤ maxLen ∨ c ∈ W)
    (h2 : st.2.length ≤ maxLen ∨ st.2 ∈ W) :
    (∀ c ∈ (packStep maxLen st para).1, c.length ≤ maxLen ∨ c ∈ W) ∧
      ((packStep maxLen st para).2.length ≤ maxLen ∨ (packStep maxLen st para).2 ∈ W) := by
  unfold packStep
  by_cases hcur : st.2 = []
  · rw [if_pos hcur]
    by_cases hfit : (stripWS (collapseNLSpace para)).length ≤ maxLen
    · rw [if_pos hfit]
      exact ⟨h1, Or.inl hfit⟩
    · rw [if_neg hfit]
      exact addWords_words_inv maxLen W _ _ _ hwords h1 (Or.inl (by simp))
  · rw [if_neg hcur]
    by_cases hfit : (st.2 ++ '
' :: '
' :: stripWS (collapseNLSpace para)).length ≤ maxLen
    · rw [if_pos hfit]
      exact ⟨h1, Or.inl hfit⟩
    · rw [if_neg hfit]
      have hch2 : ∀ c ∈ st.1 ++ [st.2], c.length ≤ maxLen ∨ c ∈ W := by
        intro c hc
        rcases List.mem_append.mp hc with hc1 | hc1
        · exact h1 c hc1
        · rcases List.mem_singleton.mp hc1 with rfl
          exact h2
      by_cases hfit2 : (stripWS (collapseNLSpace para)).length ≤ maxLen
      · rw [if_pos hfit2]
        exact ⟨hch2, Or.inl hfit2⟩
      · rw [if_neg hfit2]
        exact addWords_words_inv maxLen W _ _ _ hwords hch2 (Or.inl (by simp))

/-- Every over-budget chunk of the packer is verbatim one of the text's
words. -/
theorem packChunks_words (maxLen : Nat) (text : List Char) :
    ∀ ch ∈ packChunks maxLen text, ch.length ≤ maxLen ∨ ch ∈ cleanWords text := by
  have hfold : ∀ (ps : List (List Char)) (st : List (List Char) × List Char),
      (∀ p ∈ ps, ∀ w ∈ splitWords (stripWS (collapseNLSpace p)), w ∈ cleanWords text) →
      (∀ c ∈ st.1, c.length ≤ maxLen ∨ c ∈ cleanWords text) →
      (st.2.length ≤ maxLen ∨ st.2 ∈ cleanWords text) →
      (∀ c ∈ (ps.foldl (packStep maxLen) st).1,
        c.length ≤ maxLen ∨ c ∈ cleanWords text) ∧
        ((ps.foldl (packStep maxLen) st).2.length ≤ maxLen ∨
          (ps.foldl (packStep maxLen) st).2 ∈ cleanWords text) := by
    intro ps
    induction ps with
    | nil =>
      intro st hp hc1 hc2
      exact ⟨hc1, hc2⟩
    | cons p ps ih =>
      intro st hp hc1 hc2
      rw [List.foldl_cons]
      have hstep := packStep_words_inv maxLen (cleanWords text) st p
        (hp p (List.mem_cons_self p ps)) hc1 hc2
      exact ih _ (fun q hq => hp q (List.mem_cons_of_mem p hq)) hstep.1 hstep.2
  intro ch hch
  have H := hfold (paragraphsOf text) ([], [])
    (fun p hp w hw => List.mem_flatMap.mpr ⟨p, hp, hw⟩)
    (by intro c hc; cases hc) (Or.inl (by simp))
  unfold packChunks at hch
  by_cases h2 : ((paragraphsOf text).foldl (packStep maxLen) ([], [])).2 = []
  · rw [if_pos h2] at hch
    exact H.1 ch hch
  · rw [if_neg h2] at hch
    rcases List.mem_append.mp hch with h | h
    · exact H.1 ch h
    · rcases List.mem_singleton.mp h with rfl
      exact H.2

/-- C2: for every input text and every maxLen of at least 1, every chunk
produced by the chunk packer of split_and_send_text has length at most
maxLen; the sole exception is a chunk that is a single word of the text
(whitespace-free and appearing verbatim among the cleaned paragraphs'
words) that is itself longer than maxLen, passed through unsplit. -/
theorem c2_chunk_length_bound (text : List Char) (maxLen : Nat) (h : 1 ≤ maxLen) :
    ∀ ch ∈ packChunks maxLen text,
      ch.length ≤ maxLen ∨
        (maxLen < ch.length ∧ (∀ c ∈ ch, isWS c = false) ∧ ch ∈ cleanWords text) := by
  intro ch hch
  by_cases hl : ch.length ≤ maxLen
  · exact Or.inl hl
  · rcases packChunks_good maxLen text ch hch with ⟨-, hlen | hwf⟩
    · exact absurd hlen hl
    · rcases packChunks_words maxLen text ch hch with hlen | hmem
      · exact absurd hlen hl
      · exact Or.inr ⟨Nat.not_le.mp hl, hwf, hmem⟩

/-- Witness for C2 on a text with an overlong word: chunks are the
overlong word (whitespace-free, a verbatim word of the text) and a
fitting remainder. -/
theorem c2_chunk_length_bound_witness :
    1 ≤ 3 ∧ (∀ ch ∈ packChunks 3 ['a', 'b', 'c', 'd', ' ', 'e', 'f'],
      ch.length ≤ 3 ∨
        (3 < ch.length ∧ (∀ c ∈ ch, isWS c = false) ∧
          ch ∈ cleanWords ['a', 'b', 'c', 'd', ' ', 'e', 'f'])) :=
  ⟨by decide, c2_chunk_length_bound ['a', 'b', 'c', 'd', ' ', 'e', 'f'] 3 (by decide)⟩

/-- C10: for every input text and maxLen of at least 1, every produced
chunk contains at least one non-whitespace character, so the
single-space-placeholder replacement before transmission is the identity
on every chunk: the transmitted payloads equal the chunks. -/
theorem c10_no_placeholder (text : List Char) (maxLen : Nat) (h : 1 ≤ maxLen) :
    (∀ ch ∈ packChunks maxLen text, ∃ c ∈ ch, isWS c = false) ∧
      split_and_send_text maxLen text = packChunks maxLen text := by
  have hg := packChunks_good maxLen text
  constructor
  · intro ch hch
    exact (hg ch hch).1
  · unfold split_and_send_text
    have hid : ∀ ch ∈ packChunks maxLen text, toSend ch = ch := by
      intro ch hch
      unfold toSend
      rw [if_neg (stripWS_ne_nil_of_hasSolid (hg ch hch).1)]
    calc (packChunks maxLen text).map toSend
        = (packChunks maxLen text).map id := List.map_congr_left hid
      _ = packChunks maxLen text := List.map_id _

/-- Witness for C10. -/
theorem c10_no_placeholder_witness :
    1 ≤ 3 ∧ ((∀ ch ∈ packChunks 3 ['a', 'b', 'c', 'd', ' ', 'e', 'f'],
        ∃ c ∈ ch, isWS c = false) ∧
      split_and_send_text 3 ['a', 'b', 'c', 'd', ' ', 'e', 'f'] =
        packChunks 3 ['a', 'b', 'c', 'd', ' ', 'e', 'f']) :=
  ⟨by decide, c10_no_placeholder ['a', 'b', 'c', 'd', ' ', 'e', 'f'] 3 (by decide)⟩

end Poster

/-! ## Segmenter claims -/

namespace Poster

/-- C5 counterexample: with custom delimiter the vertical bar and the text
a, newline, three dashes, newline, b, the custom split yields exactly one
non-empty unit, and split_msgs returns that single unit instead of falling
through to the strong-separator rule (which would yield two units). -/
theorem c5_counterexample :
    (((splitSub ['|'] (normalizeNewlines ['a', '\n', '-', '-', '-', '\n', 'b'])).map
        stripWS).filter (fun p => !p.isEmpty)).length = 1 ∧
    split_msgs (some ['|']) ['a', '\n', '-', '-', '-', '\n', 'b'] =
      [['a', '\n', '-', '-', '-', '\n', 'b']] ∧
    split_msgs none ['a', '\n', '-', '-', '-', '\n', 'b'] = [['a'], ['b']] ∧
    split_msgs (some ['|']) ['a', '\n', '-', '-', '-', '\n', 'b'] ≠
      split_msgs none ['a', '\n', '-', '-', '-', '\n', 'b'] := by
  have h1 : split_msgs (some ['|']) ['a', '\n', '-', '-', '-', '\n', 'b'] =
      [['a', '\n', '-', '-', '-', '\n', 'b']] := by
    simp [split_msgs, splitSub, stripWS, isWS, normalizeNewlines, replaceCRLF]
  have h2 : split_msgs none ['a', '\n', '-', '-', '-', '\n', 'b'] = [['a'], ['b']] := by
    simp [split_msgs, splitStrongSep, splitStrongSepAux, matchSepAt, sepTail, isWS, isDash,
      stripWS, normalizeNewlines, replaceCRLF]
  refine ⟨?_, h1, h2, ?_⟩
  · simp [splitSub, stripWS, isWS, normalizeNewlines, replaceCRLF]
  · rw [h1, h2]
    decide

/-- C5 amended: when a custom delimiter is configured, split_msgs returns
the custom split's stripped non-empty units whenever there is at least one
(even a single unit); it falls through to the strong-separator rule and
then the blank-line fallback only when the custom split yields no
non-empty unit. -/
theorem c5_custom_delimiter_priority (d text : List Char) (h : stripWS text ≠ []) :
    (((splitSub d (normalizeNewlines text)).map stripWS).filter (fun p => !p.isEmpty) ≠ [] →
      split_msgs (some d) text =
        ((splitSub d (normalizeNewlines text)).map stripWS).filter (fun p => !p.isEmpty)) ∧
    (((splitSub d (normalizeNewlines text)).map stripWS).filter (fun p => !p.isEmpty) = [] →
      split_msgs (some d) text = split_msgs none text) := by
  constructor
  · intro hne
    unfold split_msgs
    rw [if_neg h]
    simp only []
    rw [if_pos hne]
  · intro hemp
    unfold split_msgs
    rw [if_neg h, if_neg h]
    simp only [hemp]

/-- Witness for C5 (amended): a text actually containing the custom
delimiter splits into its two units. -/
theorem c5_custom_delimiter_priority_witness :
    stripWS ['a', '|', 'b'] ≠ [] ∧
    ((((splitSub ['|'] (normalizeNewlines ['a', '|', 'b'])).map stripWS).filter
        (fun p => !p.isEmpty) ≠ [] →
      split_msgs (some ['|']) ['a', '|', 'b'] =
        (((splitSub ['|'] (normalizeNewlines ['a', '|', 'b'])).map stripWS).filter
          (fun p => !p.isEmpty))) ∧
    ((((splitSub ['|'] (normalizeNewlines ['a', '|', 'b'])).map stripWS).filter
        (fun p => !p.isEmpty)) = [] →
      split_msgs (some ['|']) ['a', '|', 'b'] = split_msgs none ['a', '|', 'b'])) :=
  ⟨by decide, c5_custom_delimiter_priority ['|'] ['a', '|', 'b'] (by decide)⟩

end Poster

/-! ## Image pool claims -/

namespace Poster

/-- Membership in an insertion step. -/
theorem mem_insertS {le : List Char → List Char → Bool} {x y : List Char} :
    ∀ {l : List (List Char)}, y ∈ insertS le x l ↔ y = x ∨ y ∈ l := by
  intro l
  induction l with
  | nil => simp [insertS]
  | cons z zs ih =>
    unfold insertS
    by_cases h : le x z = true
    · rw [if_pos h]
      simp [List.mem_cons]
    · rw [if_neg h]
      rw [List.mem_cons, ih, List.mem_cons]
      tauto

/-- Sorting permutes: same members. -/
theorem mem_sortS {le : List Char → List Char → Bool} {y : List Char} :
    ∀ {l : List (List Char)}, y ∈ sortS le l ↔ y ∈ l := by
  intro l
  induction l with
  | nil => simp [sortS]
  | cons x xs ih =>
    show y ∈ insertS le x (sortS le xs) ↔ _
    rw [mem_insertS, ih, List.mem_cons]

/-- Insertion depends on the order only through the comparisons against
the inserted element. -/
theorem insertS_congr {le le' : List Char → List Char → Bool} {x : List Char} :
    ∀ {l : List (List Char)}, (∀ b ∈ l, le x b = le' x b) →
      insertS le x l = insertS le' x l := by
  intro l
  induction l with
  | nil => intro h; rfl
  | cons y ys ih =>
    intro h
    unfold insertS
    rw [h y (List.mem_cons_self y ys)]
    by_cases hy : le' x y = true
    · rw [if_pos hy, if_pos hy]
    · rw [if_neg hy, if_neg hy, ih (fun b hb => h b (List.mem_cons_of_mem y hb))]

/-- Sorting depends on the order only through comparisons of members. -/
theorem sortS_congr {le le' : List Char → List Char → Bool} :
    ∀ {l : List (List Char)}, (∀ a ∈ l, ∀ b ∈ l, le a b = le' a b) →
      sortS le l = sortS le' l := by
  intro l
  induction l with
  | nil => intro h; rfl
  | cons x xs ih =>
    intro h
    show insertS le x (sortS le xs) = insertS le' x (sortS le' xs)
    rw [ih (fun a ha b hb =>
      h a (List.mem_cons_of_mem x ha) b (List.mem_cons_of_mem x hb))]
    apply insertS_congr
    intro b hb
    exact h x (List.mem_cons_self x xs) b (List.mem_cons_of_mem x (mem_sortS.mp hb))

/-- Inserting an element that precedes every element of the tail block
stays inside the front block. -/
theorem insertS_append_of_le {le : List Char → List Char → Bool} {x : List Char}
    {bs : List (List Char)} (hxb : ∀ b ∈ bs, le x b = true) :
    ∀ as : List (List Char), insertS le x (as ++ bs) = insertS le x as ++ bs := by
  intro as
  induction as with
  | nil =>
    cases bs with
    | nil => rfl
    | cons b bs' =>
      show insertS le x (b :: bs') = [x] ++ b :: bs'
      unfold insertS
      rw [if_pos (hxb b (List.mem_cons_self b bs'))]
      rfl
  | cons a as ih =>
    show insertS le x (a :: (as ++ bs)) = insertS le x (a :: as) ++ bs
    unfold insertS
    by_cases h : le x a = true
    · rw [if_pos h, if_pos h]
      rfl
    · rw [if_neg h, if_neg h, ih]
      rfl

/-- Inserting an element that follows every element of the front block
lands inside the tail block. -/
theorem insertS_append_of_not_le {le : List Char → List Char → Bool} {x : List Char} :
    ∀ as : List (List Char), (∀ a ∈ as, le x a = false) →
      ∀ bs, insertS le x (as ++ bs) = as ++ insertS le x bs := by
  intro as
  induction as with
  | nil => intro h bs; rfl
  | cons a as ih =>
    intro h bs
    have hstep : insertS le x (a :: (as ++ bs)) =
        if le x a = true then x :: a :: (as ++ bs) else a :: insertS le x (as ++ bs) := rfl
    show insertS le x (a :: (as ++ bs)) = a :: (as ++ insertS le x bs)
    rw [hstep, if_neg (by rw [h a (List.mem_cons_self a as)]; simp),
      ih (fun y hy => h y (List.mem_cons_of_mem a hy)) bs]

/-- A stable sort under an order that puts one class strictly before the
other sorts each class separately and concatenates. -/
theorem sortS_split (le : List Char → List Char → Bool) (A : List Char → Bool)
    (hAB : ∀ a b, A a = true → A b = false → le a b = true ∧ le b a = false) :
    ∀ l : List (List Char),
      sortS le l = sortS le (l.filter A) ++ sortS le (l.filter (fun y => !A y)) := by
  intro l
  induction l with
  | nil => rfl
  | cons x l ih =>
    by_cases hx : A x = true
    · rw [List.filter_cons, if_pos (by rw [hx]),
        List.filter_cons, if_neg (by rw [hx]; simp)]
      show insertS le x (sortS le l) = insertS le x (sortS le (l.filter A)) ++
        sortS le (l.filter (fun y => !A y))
      rw [ih]
      apply insertS_append_of_le
      intro b hb
      have hbB : A b = false := by
        have := (List.mem_filter.mp (mem_sortS.mp hb)).2
        simpa using this
      exact (hAB x b hx hbB).1
    · have hx' : A x = false := by
        cases hA : A x
        · rfl
        · exact absurd hA hx
      rw [List.filter_cons, if_neg (by rw [hx']; simp),
        List.filter_cons, if_pos (by rw [hx']; rfl)]
      show insertS le x (sortS le l) =
        sortS le (l.filter A) ++ insertS le x (sortS le (l.filter (fun y => !A y)))
      rw [ih]
      apply insertS_append_of_not_le
      intro a ha
      have haA : A a = true := (List.mem_filter.mp (mem_sortS.mp ha)).2
      exact (hAB a x haA hx').2

/-- C6 counterexample: two directories named B (upper case) and a (lower
case), each holding one image.  The code sorts the top level by the
lower-cased name, expanding a before B; the claim's plain lexicographic
order (by code point) would expand B first.  The outputs differ. -/
theorem c6_counterexample :
    gather_images ['r']
        [(['B'], some [['x', '.', 'j', 'p', 'g']]), (['a'], some [['y', '.', 'j', 'p', 'g']])] =
      [['r', '/', 'a', '/', 'y', '.', 'j', 'p', 'g'], ['r', '/', 'B', '/', 'x', '.', 'j', 'p', 'g']] ∧
    gatherImagesSpec lexLE ['r']
        [(['B'], some [['x', '.', 'j', 'p', 'g']]), (['a'], some [['y', '.', 'j', 'p', 'g']])] =
      [['r', '/', 'B', '/', 'x', '.', 'j', 'p', 'g'], ['r', '/', 'a', '/', 'y', '.', 'j', 'p', 'g']] ∧
    gather_images ['r']
        [(['B'], some [['x', '.', 'j', 'p', 'g']]), (['a'], some [['y', '.', 'j', 'p', 'g']])] ≠
      gatherImagesSpec lexLE ['r']
        [(['B'], some [['x', '.', 'j', 'p', 'g']]), (['a'], some [['y', '.', 'j', 'p', 'g']])] := by
  refine ⟨by decide, by decide, by decide⟩

/-- C6 amended: gather_images returns, deterministically in the listing,
the numeric-named top-level entries first in numeric order, then the
remaining top-level entries in case-insensitive lexicographic order (by
lower-cased name), with directories expanded (their filenames sorted)
before the root-level loose image files are appended in sorted order with
duplicate paths removed: it equals the claim-side description with that
one ordering amendment. -/
theorem c6_gather_images_order (root : List Char) (listing : DirListing) :
    gather_images root listing = gatherImagesSpec lowerLexLE root listing := by
  have horder : sortS pyKeyLE (listing.map Prod.fst) =
      specTopOrder lowerLexLE (listing.map Prod.fst) := by
    unfold specTopOrder
    have hsplit := sortS_split pyKeyLE isDigitStr
      (by
        intro a b ha hb
        constructor
        · simp [pyKeyLE, ha, hb]
        · simp [pyKeyLE, ha, hb])
      (listing.map Prod.fst)
    rw [hsplit]
    congr 1
    · apply sortS_congr
      intro a ha b hb
      have ha' : isDigitStr a = true := (List.mem_filter.mp ha).2
      have hb' : isDigitStr b = true := (List.mem_filter.mp hb).2
      simp [pyKeyLE, ha', hb']
    · apply sortS_congr
      intro a ha b hb
      have ha' : isDigitStr a = false := by
        have := (List.mem_filter.mp ha).2
        simpa using this
      have hb' : isDigitStr b = false := by
        have := (List.mem_filter.mp hb).2
        simpa using this
      simp [pyKeyLE, ha', hb']
  simp only [gather_images, gatherImagesSpec]
  rw [horder]

end Poster
